import Mathlib

/-!
Verification of the `toons` command-line tool (src/main.rs) against its
natural-language specification.

The development shallowly embeds the relevant parts of the Rust source:

* the skill-queue aggregation (`calculate_queued_skill`, `do_stats_single`,
  `do_stats` in src/main.rs) over exact arithmetic: Rust `i32`/`i64` values
  become `Int`, and the `f64` computations of `calculate_queued_skill` become
  `ℚ` (the timestamps and skill-point values involved are far below 2^53, so
  the casts to `f64` are exact; the claims settled here depend only on branch
  structure, signs, and exactly representable fractions such as `d / d = 1`,
  on which `f64` and `ℚ` agree);
* the external `chrono` date parsing is abstracted at its interface: a
  `QueuedSkill` carries the Unix timestamps that `DateTime::parse_from_rfc3339
  (..).timestamp()` would return for its `start_date` / `finish_date` strings;
* `HashMap<String, CharacterData>` becomes an association list
  `List (String × CharacterData)`; the arbitrary iteration order of the Rust
  hash map is reflected by quantifying over permutations where it matters;
* the callback listener's per-connection read loop (`auth_cb`) becomes a
  function over the list of lines produced by successive `read_line` calls,
  plus a fuel-indexed variant that also models reads past end-of-file
  (`read_line` returning `Ok(0)` and leaving the cleared buffer empty);
* Rust `f64 as i64` conversion is truncation toward zero (`truncToInt`), and
  Rust `i64` division is truncated division (`Int.tdiv`).
-/

/-! ## Data model: skill queue entries (struct `QueuedSkill`, src/main.rs) -/

/-- Rust struct `QueuedSkill` (src/main.rs lines 227-237).  `start_date` and
`finish_date` hold the Unix timestamps obtained from the RFC3339 strings of
the wire format (the external `chrono` parser is abstracted to its result). -/
structure QueuedSkill where
  queue_position : Int
  skill_id : Int
  finished_level : Int
  start_date : Int
  finish_date : Int
  training_start_sp : Int
  level_start_sp : Int
  level_end_sp : Int
deriving DecidableEq, Repr

/-- Rust static `CROP_SKILLS` (src/main.rs line 217). -/
def CROP_SKILLS : List Int := [3412, 3551, 13278, 21718, 25739, 25810, 25811]

/-- Rust `f64 as i64` conversion for finite values: truncation toward zero.
For `q = num/den` in lowest terms with `den > 0`, truncation toward zero is
truncated integer division of the numerator by the denominator. -/
def truncToInt (q : ℚ) : Int := q.num.tdiv q.den

/-- Rust fn `calculate_queued_skill` (src/main.rs lines 239-282), with the
current time `now` (obtained in Rust from `Utc::now().timestamp()`) passed as
a parameter.  Returns `(training, is_crop, points)` exactly as the source
does; the `f64` arithmetic of the in-training branch is embedded in `ℚ`. -/
def calculate_queued_skill (skill : QueuedSkill) (now : Int) : Bool × Bool × Int :=
  if ¬ (skill.skill_id ∈ CROP_SKILLS) then (false, false, 0)
  else
    let nowq : ℚ := (now : ℚ)
    let skill_start : ℚ := (skill.start_date : ℚ)
    let skill_finish : ℚ := (skill.finish_date : ℚ)
    if skill_start < nowq then
      -- Skill either completed training or currently in training
      if nowq > skill_finish then
        -- Skill has finished training
        (false, false, skill.level_end_sp - skill.training_start_sp)
      else
        -- Skill currently in training
        let train_points : ℚ := ((skill.level_end_sp - skill.training_start_sp : Int) : ℚ)
        let completed : ℚ := nowq - skill_start
        let total : ℚ := skill_finish - skill_start
        let pct : ℚ := completed / total
        let sp : ℚ := train_points * pct
        (true, false, truncToInt sp)
    else
      (false, true, 0)

/-- The queue-points accumulation of Rust fn `do_stats_single`
(src/main.rs lines 320-331): `stat.points += points` over all queue
entries, starting from an accumulator value. -/
def queue_points (queue : List QueuedSkill) (now : Int) : Int :=
  queue.foldl (fun acc sk => acc + (calculate_queued_skill sk now).2.2) 0

/-! ## Branch analysis of `calculate_queued_skill` -/

/-- Entries of untracked kinds contribute nothing (early return, line 240). -/
lemma calc_skip (skill : QueuedSkill) (now : Int) (h : skill.skill_id ∉ CROP_SKILLS) :
    calculate_queued_skill skill now = (false, false, 0) := by
  simp only [calculate_queued_skill, if_pos h]

/-- The fully-trained branch (lines 258-262). -/
lemma calc_finished (skill : QueuedSkill) (now : Int) (h : skill.skill_id ∈ CROP_SKILLS)
    (h1 : skill.start_date < now) (h2 : skill.finish_date < now) :
    calculate_queued_skill skill now =
      (false, false, skill.level_end_sp - skill.training_start_sp) := by
  simp only [calculate_queued_skill, if_neg (not_not_intro h)]
  rw [if_pos (by exact_mod_cast h1), if_pos (by exact_mod_cast h2)]

/-- The in-training branch (lines 263-276), reached exactly when
`start_date < now ≤ finish_date`; the returned points are the truncated
fractional contribution. -/
lemma calc_training (skill : QueuedSkill) (now : Int) (h : skill.skill_id ∈ CROP_SKILLS)
    (h1 : skill.start_date < now) (h2 : now ≤ skill.finish_date) :
    calculate_queued_skill skill now =
      (true, false,
        truncToInt (((skill.level_end_sp - skill.training_start_sp : Int) : ℚ) *
          (((now : ℚ) - (skill.start_date : ℚ)) /
            ((skill.finish_date : ℚ) - (skill.start_date : ℚ))))) := by
  simp only [calculate_queued_skill, if_neg (not_not_intro h)]
  rw [if_pos (by exact_mod_cast h1), if_neg (by exact_mod_cast not_lt.mpr h2)]

/-- The not-yet-started branch (lines 277-279). -/
lemma calc_queued (skill : QueuedSkill) (now : Int) (h : skill.skill_id ∈ CROP_SKILLS)
    (h1 : now ≤ skill.start_date) :
    calculate_queued_skill skill now = (false, true, 0) := by
  simp only [calculate_queued_skill, if_neg (not_not_intro h)]
  rw [if_neg (by exact_mod_cast not_lt.mpr h1)]

/-- Truncation toward zero is the identity on integers. -/
lemma truncToInt_intCast (n : Int) : truncToInt ((n : Int) : ℚ) = n := by
  simp [truncToInt, Rat.num_intCast, Rat.den_intCast]

/-- Truncation toward zero preserves nonnegativity. -/
lemma truncToInt_nonneg {q : ℚ} (h : 0 ≤ q) : 0 ≤ truncToInt q :=
  Int.tdiv_nonneg (Rat.num_nonneg.mpr h) (Int.ofNat_nonneg _)

/-- Per-entry contribution is nonnegative when the entry's skill points are
monotone (`training_start_sp ≤ level_end_sp`). -/
lemma calc_points_nonneg (skill : QueuedSkill) (now : Int)
    (h : skill.training_start_sp ≤ skill.level_end_sp) :
    0 ≤ (calculate_queued_skill skill now).2.2 := by
  by_cases hm : skill.skill_id ∈ CROP_SKILLS
  · rcases lt_or_le skill.start_date now with h1 | h1
    · rcases le_or_lt now skill.finish_date with h2 | h2
      · rw [calc_training skill now hm h1 h2]
        apply truncToInt_nonneg
        have hs : ((skill.start_date : ℚ)) ≤ (now : ℚ) := by exact_mod_cast le_of_lt h1
        have hf : ((skill.start_date : ℚ)) ≤ (skill.finish_date : ℚ) := by
          exact_mod_cast le_of_lt (lt_of_lt_of_le h1 h2)
        have htp : (0 : ℚ) ≤ ((skill.level_end_sp - skill.training_start_sp : Int) : ℚ) := by
          exact_mod_cast Int.sub_nonneg.mpr h
        exact mul_nonneg htp (div_nonneg (by linarith) (by linarith))
      · rw [calc_finished skill now hm h1 h2]; simp; omega
    · rw [calc_queued skill now hm h1]
  · rw [calc_skip skill now hm]

/-- Folding `acc + contribution` over a queue of nonnegative contributions
stays nonnegative. -/
lemma foldl_add_points_nonneg (now : Int) (l : List QueuedSkill) :
    ∀ acc : Int, 0 ≤ acc →
      (∀ sk ∈ l, 0 ≤ (calculate_queued_skill sk now).2.2) →
      0 ≤ l.foldl (fun a sk => a + (calculate_queued_skill sk now).2.2) acc := by
  induction l with
  | nil => intro acc ha _; simpa using ha
  | cons sk rest ih =>
    intro acc ha h
    simp only [List.foldl_cons]
    exact ih _ (add_nonneg ha (h sk (by simp))) (fun x hx => h x (by simp [hx]))

/-- Skill used in the C1 counterexample: a tracked entry whose training
window has zero duration (`finish_date = start_date`). -/
def zeroDurSkill : QueuedSkill := ⟨0, 3412, 5, 100, 100, 1000, 0, 1500⟩

/-- C1 (counterexample): a tracked queue entry with `finish_time = start_time`
never reaches the in-progress fraction computation.  At `now = 200` (after the
window) `calculate_queued_skill` takes the fully-trained branch and returns the
exact point difference with `training = false`; at `now = 50` (before the
window) it takes the queued branch.  The `training` flag is `true` exactly when
the fraction `completed / total` is computed, so the division the claim
asserts does not happen for such an entry. -/
theorem zero_duration_skips_fraction : zeroDurSkill.finish_date = zeroDurSkill.start_date
    ∧ calculate_queued_skill zeroDurSkill 200 = (false, false, 500)
    ∧ calculate_queued_skill zeroDurSkill 50 = (false, true, 0) := by
  refine ⟨rfl, ?_, ?_⟩ <;> norm_num [zeroDurSkill, calculate_queued_skill, CROP_SKILLS]

/-- C1 (amended): the reference aggregation never divides by zero.  The
in-progress fraction computation (marked by the returned `training` flag) runs
only when `start_time < now ≤ finish_time`, which forces
`start_time < finish_time`, i.e. a strictly positive divisor
`finish_time - start_time`; an entry with `finish_time = start_time` is
classified as fully trained or queued and never reaches the fraction. -/
theorem fraction_branch_positive_divisor :
    ∀ (skill : QueuedSkill) (now : Int),
      ((calculate_queued_skill skill now).1 = true →
        skill.start_date < skill.finish_date)
      ∧ (skill.finish_date = skill.start_date →
        (calculate_queued_skill skill now).1 = false) := by
  intro skill now
  have key : (calculate_queued_skill skill now).1 = true →
      skill.start_date < skill.finish_date := by
    intro h
    by_cases hm : skill.skill_id ∈ CROP_SKILLS
    · rcases lt_or_le skill.start_date now with h1 | h1
      · rcases le_or_lt now skill.finish_date with h2 | h2
        · omega
        · rw [calc_finished skill now hm h1 h2] at h; simp at h
      · rw [calc_queued skill now hm h1] at h; simp at h
    · rw [calc_skip skill now hm] at h; simp at h
  refine ⟨key, fun he => ?_⟩
  by_contra hb
  have ht : (calculate_queued_skill skill now).1 = true := by
    simpa using hb
  have := key ht
  omega

/-- C1 (witness): the amended theorem applied to the zero-duration entry. -/
theorem fraction_branch_positive_divisor_witness :
    (calculate_queued_skill zeroDurSkill 200).1 = false :=
  (fraction_branch_positive_divisor zeroDurSkill 200).2 rfl

/-- Skill used in the C2 counterexample: a tracked, fully-trained entry whose
`level_end_sp` is below its `training_start_sp`. -/
def negSkill : QueuedSkill := ⟨0, 3412, 5, 0, 10, 1000, 0, 0⟩

/-- C2 (counterexample): without a precondition relating `level_end_points`
and `start_points`, a queue entry's contribution can be negative: a tracked
entry with `level_end_sp = 0 < 1000 = training_start_sp`, fully trained by
`now = 20`, contributes `-1000`, and the accumulated total is negative. -/
theorem queued_points_negative_example :
    (calculate_queued_skill negSkill 20).2.2 = -1000
    ∧ queue_points [negSkill] 20 = -1000
    ∧ ¬ (0 ≤ queue_points [negSkill] 20) := by
  refine ⟨?_, ?_, ?_⟩ <;>
    norm_num [queue_points, negSkill, calculate_queued_skill, CROP_SKILLS]

/-- C2 (amended): if every queue entry satisfies
`training_start_sp ≤ level_end_sp` (which the remote API guarantees for real
queues), then every individual contribution of `calculate_queued_skill` is
nonnegative — the in-progress fraction is truncated toward zero — and the
accumulated `total_points` of the queue pass is nonnegative. -/
theorem queue_points_nonneg :
    ∀ (queue : List QueuedSkill) (now : Int),
      (∀ sk ∈ queue, sk.training_start_sp ≤ sk.level_end_sp) →
      (∀ sk ∈ queue, 0 ≤ (calculate_queued_skill sk now).2.2)
      ∧ 0 ≤ queue_points queue now := by
  intro queue now h
  have hpt : ∀ sk ∈ queue, 0 ≤ (calculate_queued_skill sk now).2.2 :=
    fun sk hsk => calc_points_nonneg sk now (h sk hsk)
  exact ⟨hpt, foldl_add_points_nonneg now queue 0 le_rfl hpt⟩

/-- Skill used in witnesses: tracked, in training at `now = 200`. -/
def okSkill : QueuedSkill := ⟨0, 3412, 5, 100, 300, 1000, 0, 2000⟩

/-- C2 (witness): the amended theorem applied to a concrete one-entry queue. -/
theorem queue_points_nonneg_witness : 0 ≤ queue_points [okSkill] 200 :=
  (queue_points_nonneg [okSkill] 200 (by decide)).2

/-- C4: for a tracked entry with `finish_time ≤ now` and `start_time < now`
the points contributed are exactly `level_end_sp - training_start_sp`.  When
`finish_time < now` this is the fully-trained branch; on the boundary
`finish_time = now` the code takes the in-training branch, where the fraction
is `d / d = 1` for the strictly positive duration `d`, so the truncated
product is still exact. -/
theorem finished_entry_points_exact :
    ∀ (skill : QueuedSkill) (now : Int), skill.skill_id ∈ CROP_SKILLS →
      skill.finish_date ≤ now → skill.start_date < now →
      (calculate_queued_skill skill now).2.2 =
        skill.level_end_sp - skill.training_start_sp := by
  intro skill now hm h2 h3
  rcases lt_or_eq_of_le h2 with hlt | heq
  · rw [calc_finished skill now hm h3 hlt]
  · rw [calc_training skill now hm h3 (le_of_eq heq.symm)]
    have hne : ((skill.finish_date : ℚ)) - (skill.start_date : ℚ) ≠ 0 := by
      have : (skill.start_date : ℚ) < (skill.finish_date : ℚ) := by
        exact_mod_cast lt_of_lt_of_le h3 (le_of_eq heq.symm)
      exact sub_ne_zero.mpr (ne_of_gt this)
    rw [heq] at hne ⊢
    rw [div_self hne, mul_one, truncToInt_intCast]

/-- Skill used in the C4 witness: tracked, finished strictly before `now`. -/
def doneSkill : QueuedSkill := ⟨0, 3412, 5, 100, 150, 1000, 0, 1500⟩

/-- C4 (witness): the theorem applied to a concrete finished entry. -/
theorem finished_entry_points_exact_witness :
    (calculate_queued_skill doneSkill 200).2.2 = 500 := by
  rw [finished_entry_points_exact doneSkill 200 (by decide) (by decide) (by decide)]
  decide

/-! ## The stats report: sorting and extraction count (fn `do_stats`) -/

/-- Rust struct `CropStat` (src/main.rs lines 219-225). -/
structure CropStat where
  name : String
  points : Int
  training : Bool
  queued : Nat
deriving DecidableEq, Repr

/-- The key-based comparison of `crop_stats.sort_by_key(|s| s.points)`. -/
def statLE (a b : CropStat) : Bool := decide (a.points ≤ b.points)

/-- Rust `crop_stats.sort_by_key(|s| s.points); crop_stats.reverse();`
(src/main.rs lines 366-367).  `sort_by_key` is a stable ascending sort, so it
is embedded as the stable `List.mergeSort`; the whole result is reversed. -/
def sortStats (stats : List CropStat) : List CropStat :=
  (stats.mergeSort statLE).reverse

/-- The extraction counter of `do_stats` (src/main.rs lines 369-371):
`available_extracts += stat.points / 500_000` over the sorted report, where
Rust `i64` division truncates toward zero (`Int.tdiv`). -/
def availableExtracts (stats : List CropStat) : Int :=
  (sortStats stats).foldl (fun acc s => acc + s.points.tdiv 500000) 0

lemma statLE_trans : ∀ a b c : CropStat, statLE a b → statLE b c → statLE a c := by
  intro a b c hab hbc
  simp only [statLE, decide_eq_true_eq] at *
  omega

lemma statLE_total : ∀ a b : CropStat, statLE a b || statLE b a := by
  intro a b
  simp only [statLE, Bool.or_eq_true, decide_eq_true_eq]
  omega

/-- The output of `sortStats` is sorted by points, highest first. -/
lemma sortStats_sorted (stats : List CropStat) :
    (sortStats stats).Pairwise (fun a b => b.points ≤ a.points) := by
  unfold sortStats
  rw [List.pairwise_reverse]
  exact (List.sorted_mergeSort statLE_trans statLE_total stats).imp
    (fun h => by simpa [statLE, decide_eq_true_eq] using h)

/-- The function `sortStats` permutes its input. -/
lemma sortStats_perm (stats : List CropStat) : List.Perm (sortStats stats) stats :=
  (List.reverse_perm _).trans (List.mergeSort_perm stats statLE)

/-- Within one points value, `sortStats` reverses the input order: the stable
ascending sort keeps ties in input order and the final `reverse` flips them. -/
lemma sortStats_filter_eq (stats : List CropStat) (k : Int) :
    (sortStats stats).filter (fun s => decide (s.points = k)) =
      (stats.filter (fun s => decide (s.points = k))).reverse := by
  have hpair : (stats.filter (fun s => decide (s.points = k))).Pairwise
      (fun a b => statLE a b = true) := by
    apply List.pairwise_of_forall_mem_list
    intro a ha b hb
    have ha' := List.of_mem_filter ha
    have hb' := List.of_mem_filter hb
    simp only [decide_eq_true_eq] at ha' hb'
    simp only [statLE, decide_eq_true_eq]
    omega
  have hsub : List.Sublist (stats.filter (fun s => decide (s.points = k)))
      (stats.mergeSort statLE) :=
    List.sublist_mergeSort statLE_trans statLE_total hpair (List.filter_sublist stats)
  have hself : (stats.filter (fun s => decide (s.points = k))).filter
      (fun s => decide (s.points = k)) = stats.filter (fun s => decide (s.points = k)) :=
    List.filter_eq_self.mpr (fun a ha => (List.mem_filter.mp ha).2)
  have hsub2 : List.Sublist (stats.filter (fun s => decide (s.points = k)))
      ((stats.mergeSort statLE).filter (fun s => decide (s.points = k))) := by
    have := hsub.filter (fun s => decide (s.points = k))
    rwa [hself] at this
  have hperm : List.Perm ((stats.mergeSort statLE).filter (fun s => decide (s.points = k)))
      (stats.filter (fun s => decide (s.points = k))) :=
    (List.mergeSort_perm stats statLE).filter _
  have heq : stats.filter (fun s => decide (s.points = k)) =
      (stats.mergeSort statLE).filter (fun s => decide (s.points = k)) :=
    hsub2.eq_of_length hperm.length_eq.symm
  unfold sortStats
  rw [List.filter_reverse, ← heq]

/-- Stats used in the C3 counterexample: distinct stats with equal points. -/
def statA : CropStat := ⟨"A", 5, false, 0⟩

/-- Second stat for the C3 counterexample. -/
def statB : CropStat := ⟨"B", 5, false, 0⟩

/-- C3 (counterexample): the report ordering is not stable-descending.  For
the input `[statA, statB]` with equal points, the code's ascending stable
sort keeps `[statA, statB]` and the final whole-list `reverse` emits
`[statB, statA]` — the two equal-points stats do not keep their input
order. -/
theorem sortStats_reverses_ties :
    sortStats [statA, statB] = [statB, statA]
    ∧ statA ≠ statB ∧ statA.points = statB.points := by
  refine ⟨?_, by decide, rfl⟩
  unfold sortStats
  rw [List.mergeSort_of_sorted (by decide)]
  rfl

/-- C3 (amended): the final report is sorted by `total_points` descending and
is a permutation of the collected input, but ties are emitted in the REVERSE
of their input order: the code stable-sorts ascending and then reverses the
whole list, so within each points value the filtered subsequence of the
output is the reverse of the corresponding input subsequence. -/
theorem sortStats_desc_antistable :
    ∀ stats : List CropStat,
      (sortStats stats).Pairwise (fun a b => b.points ≤ a.points)
      ∧ List.Perm (sortStats stats) stats
      ∧ ∀ k : Int,
          (sortStats stats).filter (fun s => decide (s.points = k)) =
            (stats.filter (fun s => decide (s.points = k))).reverse :=
  fun stats =>
    ⟨sortStats_sorted stats, sortStats_perm stats, fun k => sortStats_filter_eq stats k⟩

/-- Restatement of `foldl` accumulation as a mapped sum. -/
lemma foldl_add_eq_sum (f : CropStat → Int) (l : List CropStat) :
    ∀ acc : Int, l.foldl (fun a s => a + f s) acc = acc + (l.map f).sum := by
  induction l with
  | nil => intro acc; simp
  | cons x xs ih =>
    intro acc
    simp only [List.foldl_cons, List.map_cons, List.sum_cons, ih]
    omega

/-- The accumulated extraction count is the sum of the per-stat truncated
divisions, independent of the report order. -/
lemma availableExtracts_eq_sum (stats : List CropStat) :
    availableExtracts stats = (stats.map (fun s => s.points.tdiv 500000)).sum := by
  unfold availableExtracts
  rw [foldl_add_eq_sum, zero_add]
  exact List.Perm.sum_eq ((sortStats_perm stats).map _)

/-- Stat used in the C7 counterexample: a negative total. -/
def negStat : CropStat := ⟨"N", -1, false, 0⟩

/-- C7 (counterexample): the reported extraction total uses Rust's truncating
`i64` division, not `floor`.  For a single reported identity with
`total_points = -1` the code reports `(-1).tdiv 500000 = 0`, while
`floor(-1 / 500000) = -1`. -/
theorem extracts_trunc_ne_floor :
    availableExtracts [negStat] ≠ (([negStat].map (fun s => s.points.fdiv 500000)).sum)
    ∧ availableExtracts [negStat] = 0
    ∧ (([negStat].map (fun s => s.points.fdiv 500000)).sum) = -1 := by
  have h : sortStats [negStat] = [negStat] := by
    unfold sortStats
    rw [List.mergeSort_of_sorted (by decide)]
    rfl
  refine ⟨?_, ?_, by decide⟩ <;>
    simp only [availableExtracts, h, List.foldl_cons, List.foldl_nil] <;> decide

/-- The three-identity input of C7's end-to-end example (collected in
ascending order; the report must emit them in descending order). -/
def exampleStats : List CropStat :=
  [⟨"four", 400000, false, 0⟩, ⟨"nine", 900000, false, 0⟩, ⟨"twelve", 1200000, false, 0⟩]

/-- C7 (amended): the reported total available extractions is the sum over
reported identities of `total_points / 500000` with Rust's truncation toward
zero; this equals the claimed sum of floors whenever every reported total is
nonnegative.  The three-identity example produces the report in descending
order `[1200000; 900000; 400000]` and a total of `2 + 1 + 0 = 3`
extractions. -/
theorem extracts_sum_and_example :
    (∀ stats : List CropStat,
      availableExtracts stats = (stats.map (fun s => s.points.tdiv 500000)).sum)
    ∧ (∀ stats : List CropStat, (∀ s ∈ stats, 0 ≤ s.points) →
      availableExtracts stats = (stats.map (fun s => s.points.fdiv 500000)).sum)
    ∧ sortStats exampleStats =
        [⟨"twelve", 1200000, false, 0⟩, ⟨"nine", 900000, false, 0⟩, ⟨"four", 400000, false, 0⟩]
    ∧ availableExtracts exampleStats = 3 := by
  have hsortEx : sortStats exampleStats =
      [⟨"twelve", 1200000, false, 0⟩, ⟨"nine", 900000, false, 0⟩,
        ⟨"four", 400000, false, 0⟩] := by
    unfold sortStats exampleStats
    rw [List.mergeSort_of_sorted (by decide)]
    rfl
  refine ⟨fun stats => availableExtracts_eq_sum stats, fun stats h => ?_, hsortEx, ?_⟩
  · rw [availableExtracts_eq_sum]
    congr 1
    apply List.map_congr_left
    intro s hs
    exact (Int.fdiv_eq_tdiv (h s hs) (by decide)).symm
  · simp only [availableExtracts, hsortEx, List.foldl_cons, List.foldl_nil]
    decide

/-- C7 (witness): the amended truncation-equals-floor part applied to the
concrete nonnegative example report. -/
theorem extracts_sum_and_example_witness :
    availableExtracts exampleStats =
      ((exampleStats.map (fun s => s.points.fdiv 500000)).sum) :=
  extracts_sum_and_example.2.1 exampleStats (by decide)

/-! ## The OAuth callback listener (fn `auth_cb`, src/main.rs lines 89-131)

The per-connection read loop is embedded as a function over the list of
lines produced by successive `BufRead::read_line` calls on the accepted
stream.  Rust strings are compared through their character lists so that
all operations reduce in the kernel; for valid UTF-8, Rust's byte-level
`str::starts_with` agrees with character-level prefix testing. -/

/-- Rust struct `EsiCallbackParams` (src/main.rs lines 43-47). -/
structure EsiCallbackParams where
  code : String
  state : String
deriving DecidableEq, Repr

/-- The fixed callback path start checked at src/main.rs line 100. -/
def pfxS : String := "GET /esi/callback?"

/-- Rust `str::starts_with` on strings. -/
def startsWithS (s p : String) : Bool := p.data.isPrefixOf s.data

/-- Rust `str::split_once(c)`: split at the first occurrence of `c`,
returning `none` when `c` does not occur (which makes the source's
`.unwrap()` panic). -/
def splitOnceCh (c : Char) : List Char → Option (List Char × List Char)
  | [] => none
  | x :: xs =>
    if x = c then some ([], xs)
    else (splitOnceCh c xs).map (fun q => (x :: q.1, q.2))

/-- Rust `str::split(c)` on character lists (used to model the query-string
decoding of the external `serde_qs` crate). -/
def splitCh (c : Char) : List Char → List (List Char)
  | [] => [[]]
  | x :: xs =>
    let r := splitCh c xs
    if x = c then [] :: r
    else
      match r with
      | [] => [[x]]
      | y :: ys => (x :: y) :: ys

/-- One `key=value` pair of a query string; a part without `=` becomes a key
with an empty value. -/
def qsPair (part : List Char) : List Char × List Char :=
  match splitOnceCh '=' part with
  | some q => q
  | none => (part, [])

/-- First value bound to a key in a decoded pair list. -/
def lookupQS (pairs : List (List Char × List Char)) (k : List Char) : Option (List Char) :=
  (pairs.find? (fun p => p.1 == k)).map (fun p => p.2)

/-- Modelled from the spec: the external `serde_qs::from_str` decoding of the
callback query string into the two required fields, "parse everything between
the prefix and the next whitespace as a URL query string, decode it into
authorization_code and state".  Both fields must be present or decoding
fails, which makes the source's `.unwrap()` panic. -/
def parseQuery (q : String) : Option EsiCallbackParams :=
  let pairs := (splitCh '&' q.data).map qsPair
  match lookupQS pairs "code".data, lookupQS pairs "state".data with
  | some c, some s => some ⟨⟨c⟩, ⟨s⟩⟩
  | _, _ => none

/-- Lines 101-106 of src/main.rs: strip the callback path start, take the
text before the first space, decode it.  `none` means one of the two
`.unwrap()` calls panicked. -/
def parseCallbackLine (line : String) : Option EsiCallbackParams :=
  match splitOnceCh ' ' (line.data.drop pfxS.data.length) with
  | none => none
  | some q => parseQuery ⟨q.1⟩

/-- Result of the per-connection read loop. -/
inductive CbOutcome where
  /-- The loop broke at the header terminator with this parameter state. -/
  | done : Option EsiCallbackParams → CbOutcome
  /-- An `.unwrap()` in the callback-line handling panicked. -/
  | crash : CbOutcome
  /-- The finite stream was exhausted without a terminator: the real loop
  keeps calling `read_line`, which yields `Ok(0)` and an empty buffer
  forever, so it never terminates. -/
  | hang : CbOutcome
deriving DecidableEq, Repr

/-- The read loop of `auth_cb` (src/main.rs lines 97-117) over the finite
list of lines of the accepted stream, carrying the current `params`. -/
def authCbLoop : List String → Option EsiCallbackParams → CbOutcome
  | [], _ => CbOutcome.hang
  | line :: rest, params =>
    if startsWithS line pfxS then
      match parseCallbackLine line with
      | none => CbOutcome.crash
      | some p =>
        if line = "\r\n" then CbOutcome.done (some p) else authCbLoop rest (some p)
    else
      if line = "\r\n" then CbOutcome.done params else authCbLoop rest params

/-- Rust fn `auth_cb` for one accepted connection whose stream yields the
given lines: the loop starts with `params = None` (line 90). -/
def auth_cb (lines : List String) : CbOutcome := authCbLoop lines none

/-- One `read_line` result: the head line, or the empty string at
end-of-file (`read_line` returns `Ok(0)` and appends nothing to the freshly
cleared buffer). -/
def readLineAt (lines : List String) : String :=
  match lines with
  | [] => ""
  | l :: _ => l

/-- Fuel-indexed run of the `auth_cb` read loop that also models reads past
end-of-file: after the stream is exhausted every further `read_line` yields
the empty string.  `none` means the loop is still running after `fuel`
iterations. -/
def authCbStep : Nat → List String → Option EsiCallbackParams → Option CbOutcome
  | 0, _, _ => none
  | fuel + 1, lines, params =>
    let line := readLineAt lines
    if startsWithS line pfxS then
      match parseCallbackLine line with
      | none => some CbOutcome.crash
      | some p =>
        if line = "\r\n" then some (CbOutcome.done (some p))
        else authCbStep fuel lines.tail (some p)
    else
      if line = "\r\n" then some (CbOutcome.done params)
      else authCbStep fuel lines.tail params

/-- The parameter update performed by one loop iteration on one line
(lines 100-107 of src/main.rs): a callback line overwrites `params`, any
other line leaves it unchanged. -/
def cbStepFold (params : Option EsiCallbackParams) (line : String) : Option EsiCallbackParams :=
  if startsWithS line pfxS then parseCallbackLine line else params

example : parseCallbackLine "GET /esi/callback?code=ABC&state=XYZ HTTP/1.1\r\n" =
    some ⟨"ABC", "XYZ"⟩ := by decide

example : auth_cb ["GET /esi/callback?code=ABC&state=XYZ HTTP/1.1\r\n", "\r\n"] =
    CbOutcome.done (some ⟨"ABC", "XYZ"⟩) := by decide

lemma startsWithS_crlf : startsWithS "\r\n" pfxS = false := by decide

/-- The read loop runs through every line before the first `"\r\n"`, folding
the per-line parameter update, and stops at the terminator; the lines after
the terminator play no role. -/
lemma authCbLoop_append_crlf (post : List String) :
    ∀ (pre : List String) (params : Option EsiCallbackParams),
      ("\r\n" : String) ∉ pre →
      (∀ l ∈ pre, startsWithS l pfxS = true → (parseCallbackLine l).isSome = true) →
      authCbLoop (pre ++ "\r\n" :: post) params =
        CbOutcome.done (pre.foldl cbStepFold params) := by
  intro pre
  induction pre with
  | nil =>
    intro params _ _
    simp [authCbLoop, startsWithS_crlf]
  | cons l rest ih =>
    intro params hmem hok
    have hne : l ≠ "\r\n" := fun h => hmem (by simp [h])
    have hmem' : ("\r\n" : String) ∉ rest := fun h => hmem (by simp [h])
    have hok' : ∀ x ∈ rest, startsWithS x pfxS = true → (parseCallbackLine x).isSome = true :=
      fun x hx => hok x (by simp [hx])
    by_cases hsw : startsWithS l pfxS = true
    · obtain ⟨p, hp⟩ := Option.isSome_iff_exists.mp (hok l (by simp) hsw)
      simp only [List.cons_append, authCbLoop, hsw, hp, if_true, if_neg hne,
        List.foldl_cons]
      have hfold : cbStepFold params l = some p := by
        simp [cbStepFold, hsw, hp]
      rw [hfold]
      exact ih (some p) hmem' hok'
    · have hsw' : startsWithS l pfxS = false := by
        simpa using hsw
      simp only [List.cons_append, authCbLoop, hsw', Bool.false_eq_true, if_false,
        if_neg hne, List.foldl_cons]
      have hfold : cbStepFold params l = params := by
        simp [cbStepFold, hsw']
      rw [hfold]
      exact ih params hmem' hok'

/-- Lines that are not callback lines never change the parameter state. -/
lemma foldl_cbStepFold_of_no_callback :
    ∀ (pre : List String) (params : Option EsiCallbackParams),
      (∀ l ∈ pre, startsWithS l pfxS = false) →
      pre.foldl cbStepFold params = params := by
  intro pre
  induction pre with
  | nil => intro params _; rfl
  | cons l rest ih =>
    intro params h
    have h0 : startsWithS l pfxS = false := h l (by simp)
    simp only [List.foldl_cons]
    have hfold : cbStepFold params l = params := by simp [cbStepFold, h0]
    rw [hfold]
    exact ih params (fun x hx => h x (by simp [hx]))

/-- Callback line with code `A`, used in the C5 counterexample. -/
def cbLineA : String := "GET /esi/callback?code=A&state=S1 HTTP/1.1\r\n"

/-- Callback line with code `B`, used in the C5 counterexample. -/
def cbLineB : String := "GET /esi/callback?code=B&state=S2 HTTP/1.1\r\n"

/-- C5 (counterexample): the read loop does NOT stop at the first callback
line.  With two callback lines before the header terminator, the emitted
result carries the parameters of the SECOND line, not of the first — a line
after the first callback line is read and changes the result. -/
theorem auth_cb_second_line_overwrites :
    auth_cb [cbLineA, cbLineB, "\r\n"] = CbOutcome.done (some ⟨"B", "S2"⟩)
    ∧ parseCallbackLine cbLineA = some ⟨"A", "S1"⟩
    ∧ (⟨"B", "S2"⟩ : EsiCallbackParams) ≠ ⟨"A", "S1"⟩ := by
  refine ⟨by decide, by decide, by decide⟩

/-- C5 (amended): the per-connection read loop stops only at the empty
header-terminator line `"\r\n"`.  Every line before the terminator is read:
each callback-prefixed line overwrites the pending result (so the LAST
callback line before the terminator wins), other lines leave it unchanged,
and lines after the terminator do not affect the emitted result.  (The
hypothesis rules out the panic of the source's `.unwrap()` calls on a
malformed callback line.) -/
theorem auth_cb_reads_until_crlf :
    ∀ (pre post : List String),
      ("\r\n" : String) ∉ pre →
      (∀ l ∈ pre, startsWithS l pfxS = true → (parseCallbackLine l).isSome = true) →
      auth_cb (pre ++ "\r\n" :: post) = CbOutcome.done (pre.foldl cbStepFold none) :=
  fun pre post h1 h2 => authCbLoop_append_crlf post pre none h1 h2

/-- C5 (witness): the amended theorem applied to a concrete stream with one
callback line, a terminator, and one unread trailing line. -/
theorem auth_cb_reads_until_crlf_witness :
    auth_cb [cbLineA, "\r\n", "trailing\r\n"] = CbOutcome.done (some ⟨"A", "S1"⟩) := by
  have h := auth_cb_reads_until_crlf [cbLineA] ["trailing\r\n"] (by decide) (by decide)
  exact h.trans (by decide)

/-- C6: the request line `GET /esi/callback?code=ABC&state=XYZ HTTP/1.1`
followed by a blank line yields `code = "ABC"`, `state = "XYZ"`; a stream
whose lines before the blank line contain no callback-prefixed line yields
no parameters. -/
theorem auth_cb_parses_callback :
    auth_cb ["GET /esi/callback?code=ABC&state=XYZ HTTP/1.1\r\n", "\r\n"] =
      CbOutcome.done (some ⟨"ABC", "XYZ"⟩)
    ∧ ∀ (pre post : List String),
        (∀ l ∈ pre, startsWithS l pfxS = false) →
        ("\r\n" : String) ∉ pre →
        auth_cb (pre ++ "\r\n" :: post) = CbOutcome.done none := by
  refine ⟨by decide, fun pre post hno hmem => ?_⟩
  show authCbLoop (pre ++ "\r\n" :: post) none = CbOutcome.done none
  rw [authCbLoop_append_crlf post pre none hmem
    (fun l hl hsw => absurd hsw (by simp [hno l hl]))]
  rw [foldl_cbStepFold_of_no_callback pre none hno]

/-- C6 (witness): the no-callback part applied to a concrete header-only
stream. -/
theorem auth_cb_parses_callback_witness :
    auth_cb ["Host: localhost\r\n", "\r\n"] = CbOutcome.done none :=
  auth_cb_parses_callback.2 ["Host: localhost\r\n"] [] (by decide) (by decide)

/-- A loop reading only end-of-file results never finishes. -/
lemma authCbStep_nil : ∀ (fuel : Nat) (params : Option EsiCallbackParams),
    authCbStep fuel [] params = none := by
  intro fuel
  induction fuel with
  | zero => intro params; rfl
  | succ n ih =>
    intro params
    simp only [authCbStep, readLineAt]
    rw [if_neg (by decide), if_neg (by decide)]
    exact ih params

/-- C10: the read loop exits only by reading a line equal to `"\r\n"`.  If
the accepted stream reaches end-of-file without a terminator line (and no
malformed callback line panics first), `read_line` keeps returning `Ok(0)`
with an empty buffer and the loop never terminates: for every fuel bound the
fuel-indexed run is still running.  Conversely, whenever the run finishes
normally, the stream contained a `"\r\n"` line. -/
theorem auth_cb_hangs_without_crlf :
    ∀ lines : List String,
      (("\r\n" : String) ∉ lines →
        (∀ l ∈ lines, startsWithS l pfxS = true → (parseCallbackLine l).isSome = true) →
        ∀ (fuel : Nat) (params : Option EsiCallbackParams),
          authCbStep fuel lines params = none)
      ∧ (∀ (fuel : Nat) (params : Option EsiCallbackParams) (r : Option EsiCallbackParams),
          authCbStep fuel lines params = some (CbOutcome.done r) →
          ("\r\n" : String) ∈ lines) := by
  have part1 : ∀ (fuel : Nat) (lines : List String) (params : Option EsiCallbackParams),
      ("\r\n" : String) ∉ lines →
      (∀ l ∈ lines, startsWithS l pfxS = true → (parseCallbackLine l).isSome = true) →
      authCbStep fuel lines params = none := by
    intro fuel
    induction fuel with
    | zero => intro lines params _ _; rfl
    | succ n ih =>
      intro lines params hmem hok
      cases lines with
      | nil => exact authCbStep_nil (n + 1) params
      | cons l rest =>
        have hne : l ≠ "\r\n" := fun h => hmem (by simp [h])
        have hmem' : ("\r\n" : String) ∉ rest := fun h => hmem (by simp [h])
        have hok' : ∀ x ∈ rest, startsWithS x pfxS = true →
            (parseCallbackLine x).isSome = true := fun x hx => hok x (by simp [hx])
        by_cases hsw : startsWithS l pfxS = true
        · obtain ⟨p, hp⟩ := Option.isSome_iff_exists.mp (hok l (by simp) hsw)
          simp only [authCbStep, readLineAt, hsw, hp, if_true, if_neg hne, List.tail_cons]
          exact ih rest (some p) hmem' hok'
        · have hsw' : startsWithS l pfxS = false := by simpa using hsw
          simp only [authCbStep, readLineAt, hsw', Bool.false_eq_true, if_false,
            if_neg hne, List.tail_cons]
          exact ih rest params hmem' hok'
  have part2 : ∀ (fuel : Nat) (lines : List String) (params r : Option EsiCallbackParams),
      authCbStep fuel lines params = some (CbOutcome.done r) →
      ("\r\n" : String) ∈ lines := by
    intro fuel
    induction fuel with
    | zero => intro lines params r h; exact absurd h (by simp [authCbStep])
    | succ n ih =>
      intro lines params r h
      cases lines with
      | nil => rw [authCbStep_nil (n + 1) params] at h; exact absurd h (by simp)
      | cons l rest =>
        by_cases hcr : l = "\r\n"
        · simp [hcr]
        · by_cases hsw : startsWithS l pfxS = true
          · cases hp : parseCallbackLine l with
            | none =>
              rw [show authCbStep (n + 1) (l :: rest) params = some CbOutcome.crash from by
                simp only [authCbStep, readLineAt, hsw, hp, if_true]] at h
              exact absurd h (by simp)
            | some p =>
              rw [show authCbStep (n + 1) (l :: rest) params =
                  authCbStep n rest (some p) from by
                simp only [authCbStep, readLineAt, hsw, hp, if_true, if_neg hcr,
                  List.tail_cons]] at h
              exact List.mem_cons_of_mem l (ih rest (some p) r h)
          · have hsw' : startsWithS l pfxS = false := by simpa using hsw
            rw [show authCbStep (n + 1) (l :: rest) params =
                authCbStep n rest params from by
              simp only [authCbStep, readLineAt, hsw', Bool.false_eq_true, if_false,
                if_neg hcr, List.tail_cons]] at h
            exact List.mem_cons_of_mem l (ih rest params r h)
  exact fun lines =>
    ⟨fun hmem hok fuel params => part1 fuel lines params hmem hok,
      fun fuel params r h => part2 fuel lines params r h⟩

/-- C10 (witness): a stream that ends (client closed the connection) without
ever sending a blank line: after five loop iterations the run is still going.
-/
theorem auth_cb_hangs_without_crlf_witness :
    authCbStep 5 ["junk\r\n"] none = none :=
  (auth_cb_hangs_without_crlf ["junk\r\n"]).1 (by decide) (by decide) 5 none

/-! ## The credential store (fns `write_toons`, `read_toons`, `find_toon`)

`HashMap<String, CharacterData>` is embedded as an association list with
pairwise-distinct keys; its arbitrary iteration order is reflected by
quantifying over permutations.  The JSON layer of the external `serde_json`
crate is embedded structurally: serialization produces the JSON object tree
that `serde_json::to_writer_pretty` renders, and deserialization consumes it
the way the derived `Deserialize` instance does (each record requires its
four fields, looked up by name). -/

/-- Rust struct `CharacterData` (src/main.rs lines 35-41). -/
structure CharacterData where
  name : String
  id : Int
  refresh_token : String
  scopes : String
deriving DecidableEq, Repr

/-- JSON values, as far as the credential file format needs them. -/
inductive JsonVal where
  | str : String → JsonVal
  | num : Int → JsonVal
  | obj : List (String × JsonVal) → JsonVal

/-- The derived `Serialize` for `CharacterData`: an object with the four
fields in declaration order. -/
def CharacterData.toJson (c : CharacterData) : JsonVal :=
  JsonVal.obj [("name", JsonVal.str c.name), ("id", JsonVal.num c.id),
    ("refresh_token", JsonVal.str c.refresh_token), ("scopes", JsonVal.str c.scopes)]

/-- First value bound to a field name in a JSON object's field list. -/
def jField (fields : List (String × JsonVal)) (k : String) : Option JsonVal :=
  (fields.find? (fun p => p.1 == k)).map (fun p => p.2)

/-- The derived `Deserialize` for `CharacterData`: all four fields must be
present with the right types. -/
def CharacterData.fromJson : JsonVal → Option CharacterData
  | JsonVal.obj fields =>
    match jField fields "name", jField fields "id",
        jField fields "refresh_token", jField fields "scopes" with
    | some (JsonVal.str n), some (JsonVal.num i),
        some (JsonVal.str r), some (JsonVal.str s) => some ⟨n, i, r, s⟩
    | _, _, _, _ => none
  | _ => none

/-- Rust fn `write_toons` (src/main.rs lines 70-75): serialize the map as a
JSON object, one field per identity, in the map's iteration order. -/
def write_toons (toons : List (String × CharacterData)) : JsonVal :=
  JsonVal.obj (toons.map (fun p => (p.1, CharacterData.toJson p.2)))

/-- Entry-by-entry deserialization of the top-level object: every value must
decode to a `CharacterData`. -/
def readEntries : List (String × JsonVal) → Option (List (String × CharacterData))
  | [] => some []
  | (k, v) :: rest =>
    match CharacterData.fromJson v, readEntries rest with
    | some c, some cs => some ((k, c) :: cs)
    | _, _ => none

/-- Rust fn `read_toons` (src/main.rs lines 77-87), applied to the JSON value
of an existing credential file: the top level must be an object of
`CharacterData` records. -/
def read_toons : JsonVal → Option (List (String × CharacterData))
  | JsonVal.obj fields => readEntries fields
  | _ => none

/-- Rust `HashMap::get`: the value stored under exactly the queried key. -/
def mapGet (toons : List (String × CharacterData)) (k : String) : Option CharacterData :=
  (toons.find? (fun p => p.1 == k)).map (fun p => p.2)

/-- Rust fn `find_toon` (src/main.rs lines 169-186): exact lookup first, then
the first stored entry whose name has the query at its beginning. -/
def find_toon (toons : List (String × CharacterData)) (name : String) :
    Option CharacterData :=
  match mapGet toons name with
  | some toon => some toon
  | none => (toons.find? (fun p => startsWithS p.1 name)).map (fun p => p.2)

/-- A record decodes back to itself. -/
lemma fromJson_toJson (c : CharacterData) :
    CharacterData.fromJson (CharacterData.toJson c) = some c := rfl

/-- Deserializing the serialized entry list recovers it exactly. -/
lemma readEntries_write (ts : List (String × CharacterData)) :
    readEntries (ts.map (fun p => (p.1, CharacterData.toJson p.2))) = some ts := by
  induction ts with
  | nil => rfl
  | cons p rest ih =>
    obtain ⟨k, c⟩ := p
    simp only [List.map_cons, readEntries, fromJson_toJson, ih]

/-- A successful exact lookup is a stored entry. -/
lemma mapGet_mem {toons : List (String × CharacterData)} {k : String}
    {v : CharacterData} (h : mapGet toons k = some v) : (k, v) ∈ toons := by
  unfold mapGet at h
  cases hf : toons.find? (fun p => p.1 == k) with
  | none => rw [hf] at h; exact absurd h (by simp)
  | some p =>
    rw [hf] at h
    have hk : p.1 = k := by
      have := List.find?_some hf
      simpa [beq_iff_eq] using this
    have hv : p.2 = v := by simpa using h
    have hp : p ∈ toons := List.mem_of_find?_eq_some hf
    have : p = (k, v) := by
      cases p
      simp_all
    rwa [this] at hp

/-- With pairwise-distinct keys, every stored entry is found by exact
lookup. -/
lemma mapGet_eq_some_of_mem {toons : List (String × CharacterData)} {k : String}
    {v : CharacterData} (hnd : (toons.map Prod.fst).Nodup) (h : (k, v) ∈ toons) :
    mapGet toons k = some v := by
  induction toons with
  | nil => exact absurd h (by simp)
  | cons p rest ih =>
    rw [List.map_cons, List.nodup_cons] at hnd
    rcases List.mem_cons.mp h with heq | hrest
    · rw [← heq]
      unfold mapGet
      rw [List.find?_cons_of_pos _ (by simp)]
      rfl
    · have hne : p.1 ≠ k := by
        intro habs
        exact hnd.1 (habs ▸ List.mem_map_of_mem Prod.fst hrest)
      unfold mapGet
      rw [List.find?_cons_of_neg _ (by simp [hne])]
      exact ih hnd.2 hrest

/-- Exact lookup misses exactly when no stored key equals the query. -/
lemma mapGet_eq_none {toons : List (String × CharacterData)} {k : String} :
    mapGet toons k = none ↔ ∀ p ∈ toons, p.1 ≠ k := by
  unfold mapGet
  cases hf : toons.find? (fun p => p.1 == k) with
  | none =>
    simp only [Option.map_none']
    constructor
    · intro _ p hp
      have := List.find?_eq_none.mp hf p hp
      simpa [beq_iff_eq] using this
    · intro _; trivial
  | some p =>
    simp only [Option.map_some']
    constructor
    · intro habs; exact absurd habs (by simp)
    · intro hall
      have := List.find?_some hf
      exact absurd (by simpa [beq_iff_eq] using this)
        (hall p (List.mem_of_find?_eq_some hf))

/-- With pairwise-distinct keys, exact lookup only depends on the key-value
set, not on the iteration order. -/
lemma mapGet_perm {ts es : List (String × CharacterData)}
    (hperm : List.Perm ts es) (hnd : (ts.map Prod.fst).Nodup) (k : String) :
    mapGet ts k = mapGet es k := by
  have hnd' : (es.map Prod.fst).Nodup := ((hperm.map Prod.fst).nodup_iff).mp hnd
  cases hv : mapGet ts k with
  | some v =>
    have hmem : (k, v) ∈ es := hperm.subset (mapGet_mem hv)
    rw [mapGet_eq_some_of_mem hnd' hmem]
  | none =>
    rw [eq_comm, mapGet_eq_none]
    exact fun p hp => mapGet_eq_none.mp hv p (hperm.symm.subset hp)

/-- C8: round trip of the credential store.  For every stored map `ts` with
pairwise-distinct identity names, serializing it with `write_toons` — in
whatever iteration order `es` the hash map produces — and deserializing the
result with `read_toons` succeeds and yields a map with exactly the same
lookups as the original (order-independent map equality). -/
theorem write_read_round_trip :
    ∀ (ts es : List (String × CharacterData)),
      (ts.map Prod.fst).Nodup → List.Perm ts es →
      read_toons (write_toons es) = some es
      ∧ ∀ k, mapGet es k = mapGet ts k := by
  intro ts es hnd hperm
  constructor
  · show readEntries (es.map (fun p => (p.1, CharacterData.toJson p.2))) = some es
    exact readEntries_write es
  · exact fun k => (mapGet_perm hperm hnd k).symm

/-- Record used in the C8 witness. -/
def cdA : CharacterData := ⟨"Alice", 1, "refA", "sc"⟩

/-- Second record used in the C8 witness. -/
def cdB : CharacterData := ⟨"Bob", 2, "refB", "sc"⟩

/-- C8 (witness): the round trip applied to a concrete two-record store,
serialized in the reversed iteration order. -/
theorem write_read_round_trip_witness :
    read_toons (write_toons [("Bob", cdB), ("Alice", cdA)]) =
      some [("Bob", cdB), ("Alice", cdA)]
    ∧ mapGet [("Bob", cdB), ("Alice", cdA)] "Alice" =
      mapGet [("Alice", cdA), ("Bob", cdB)] "Alice" :=
  ⟨(write_read_round_trip [("Alice", cdA), ("Bob", cdB)] [("Bob", cdB), ("Alice", cdA)]
      (by decide) (by decide)).1,
    (write_read_round_trip [("Alice", cdA), ("Bob", cdB)] [("Bob", cdB), ("Alice", cdA)]
      (by decide) (by decide)).2 "Alice"⟩

/-- A string begins with itself. -/
lemma isPrefixOf_self_eq_true (l : List Char) : l.isPrefixOf l = true := by
  induction l with
  | nil => rfl
  | cons a as ih => simp [List.isPrefixOf, ih]

/-- Reflexivity of `startsWithS`. -/
lemma startsWithS_refl (s : String) : startsWithS s s = true :=
  isPrefixOf_self_eq_true s.data

/-- Record used in the C9 prefix-fallback example. -/
def cdJ : CharacterData := ⟨"January", 7, "refJ", "sc"⟩

/-- C9: `find_toon` returns the record stored under the exact queried name
when present; otherwise it falls back to some record whose stored name starts
with the query; it returns nothing exactly when no stored name has the query
at its beginning.  Concretely, querying `"Jan"` against a store holding only
the key `"January"` (and no exact `"Jan"` key) returns the `"January"`
record. -/
theorem find_toon_spec :
    (∀ (toons : List (String × CharacterData)) (name : String),
      (∀ t, mapGet toons name = some t → find_toon toons name = some t)
      ∧ (find_toon toons name = none ↔ ∀ p ∈ toons, startsWithS p.1 name = false)
      ∧ (∀ r, find_toon toons name = some r →
          ∃ k, (k, r) ∈ toons ∧ startsWithS k name = true))
    ∧ find_toon [("January", cdJ)] "Jan" = some cdJ
    ∧ mapGet [("January", cdJ)] "Jan" = none := by
  refine ⟨fun toons name => ⟨?_, ?_, ?_⟩, by decide, by decide⟩
  · intro t h
    unfold find_toon
    rw [h]
  · cases hm : mapGet toons name with
    | some t =>
      simp only [find_toon, hm]
      constructor
      · intro habs; exact absurd habs (by simp)
      · intro hall
        have hmem := mapGet_mem hm
        have := hall (name, t) hmem
        rw [startsWithS_refl name] at this
        exact absurd this (by simp)
    | none =>
      simp only [find_toon, hm]
      cases hf : toons.find? (fun p => startsWithS p.1 name) with
      | none =>
        simp only [Option.map_none']
        constructor
        · intro _ p hp
          have := List.find?_eq_none.mp hf p hp
          simpa using this
        · intro _; trivial
      | some p =>
        simp only [Option.map_some']
        constructor
        · intro habs; exact absurd habs (by simp)
        · intro hall
          have := List.find?_some hf
          rw [hall p (List.mem_of_find?_eq_some hf)] at this
          exact absurd this (by simp)
  · intro r h
    cases hm : mapGet toons name with
    | some t =>
      simp only [find_toon, hm, Option.some.injEq] at h
      exact ⟨name, h ▸ mapGet_mem hm, startsWithS_refl name⟩
    | none =>
      simp only [find_toon, hm] at h
      cases hf : toons.find? (fun p => startsWithS p.1 name) with
      | none => rw [hf] at h; exact absurd h (by simp)
      | some p =>
        rw [hf] at h
        have hval : p.2 = r := by simpa using h
        have hpre := List.find?_some hf
        have hmem := List.mem_of_find?_eq_some hf
        exact ⟨p.1, by rw [← hval]; simpa using hmem, hpre⟩

/-- C9 (witness): the exact-match part applied to the concrete store. -/
theorem find_toon_spec_witness :
    find_toon [("January", cdJ)] "January" = some cdJ :=
  (find_toon_spec.1 [("January", cdJ)] "January").1 cdJ (by decide)
